import Mathlib

/-!
A verification model of the `import-dir` mechanism
(`src/import_dir/__init__.py`).

The development shallowly embeds the two components of the repository:

* `ExternalPathFinder` (the Resolver): prefix gating, the lazily
  populated per-root cache of local names, and the directory listing.
* `PrefixedImportSourceLoader` (the Loader): `get_data`, the
  syntax-tree rewrite of import statements, and `get_filename`, the
  dotted-name-to-path computation.

Python strings are Lean `String`s; slicing, `len`, `split(".")`,
`startswith`, `endswith` are modelled character-wise by the helpers
below.  A redbaron syntax tree is modelled as a list of statements:
plain-import nodes (a list of `dotted_as_name` items), from-import
nodes, and opaque other statements.  A `dotted_as_name` holds its
dotted components as a list of strings (redbaron keeps `NameNode`s
separated by dots; the in-place mutation performed by the code stores
a dotted string inside the first `NameNode`, which is reproduced here
verbatim).  Serialisation (`dumps`) joins components with dots;
re-parsing serialised text splits every rendered dotted name on dots
again, which is modelled by the `norm*` functions.

The file system is an abstract record of `isdir` / `isfile` /
`children` so that `os.listdir`, `os.path.isdir`, `os.path.exists`,
`os.path.join` and `os.path.dirname` can be given faithful
executable models.  `os.listdir` on a path that is not a directory
raises, which the model renders as an `Except` error.
-/

/-! ## Character-level dotted-name splitting and joining -/

/-- Split a character list on the dot character; mirrors Python's
`s.split(".")` (so the empty string yields one empty field). -/
def splitChAux : List Char → List (List Char)
  | [] => [[]]
  | c :: cs =>
    let r := splitChAux cs
    if c = '.' then [] :: r else (c :: r.headD []) :: r.tail

/-- Join character lists with a dot character; the left inverse of
`splitChAux`. -/
def joinCh : List (List Char) → List Char
  | [] => []
  | [l] => l
  | l :: ls => l ++ '.' :: joinCh ls

/-- Python `s.split(".")` on strings. -/
def splitOnDot (s : String) : List String :=
  (splitChAux s.data).map String.mk

/-- Python `".".join(...)` on strings; how a dotted name renders. -/
def joinDots (ls : List String) : String :=
  String.mk (joinCh (ls.map String.data))

/-- Python `s[n:]` (character slicing). -/
def strDrop (n : Nat) (s : String) : String :=
  String.mk (s.data.drop n)

/-- Python `s.startswith(p)`. -/
def strStarts (p s : String) : Bool :=
  p.data.isPrefixOf s.data

/-- Python `s.endswith(p)`. -/
def strEnds (p s : String) : Bool :=
  p.data.isSuffixOf s.data

/-- Python `s[:-n]` for `n` at most the length. -/
def strDropRight (n : Nat) (s : String) : String :=
  String.mk (s.data.take (s.data.length - n))

/-! ## The syntax-tree model -/

/-- A redbaron `dotted_as_name` node: the dotted components of the
target and the alias (`target`, the empty string when there is no
`as` clause, exactly as redbaron stores it). -/
structure DottedAs where
  value : List String
  target : String
deriving DecidableEq

/-- A redbaron `name_as_name` node inside a from-import: an imported
name and its alias (empty string when there is no `as` clause). -/
structure NameAs where
  value : String
  target : String
deriving DecidableEq

/-- One statement of a source file: a plain-import node with its
`dotted_as_name` items, a from-import node with its dotted module
path and imported names, or any other statement kept opaque.  The
rewrite in `get_data` only ever touches the first two kinds. -/
inductive Stmt where
  | importNode : List DottedAs → Stmt
  | fromImportNode : List String → List NameAs → Stmt
  | other : String → Stmt
deriving DecidableEq

/-! ## The source transformation of `PrefixedImportSourceLoader.get_data` -/

/-- The body of the loop over `dotted_as` items in `get_data`:
if the first component is a local name, it is qualified in place with
`whole_prefix`; an unaliased target additionally gets a synthetic
`<whole_prefix><root> as <root>` item inserted right after it, and is
itself removed when it had exactly one component.  Returns the items
that replace the processed one, in order. -/
def transformDottedAs (lg : List String) (wp : String) (da : DottedAs) : List DottedAs :=
  let root := da.value.headD ""
  if root ∈ lg then
    let da2 : DottedAs := ⟨(wp ++ root) :: da.value.tail, da.target⟩
    if da.target = "" then
      if da.value.length = 1 then [⟨[wp ++ root], root⟩]
      else [da2, ⟨[wp ++ root], root⟩]
    else [da2]
  else [da]

/-- Processing of all items of one plain-import node. -/
def transformImportItems (lg : List String) (wp : String) (items : List DottedAs) : List DottedAs :=
  items.flatMap (transformDottedAs lg wp)

/-- Whether processing a plain-import node sets the `changed` flag:
true exactly when some item's first component is local. -/
def importChangedB (lg : List String) (items : List DottedAs) : Bool :=
  items.any (fun da => decide (da.value.headD "" ∈ lg))

/-- The per-statement effect of `get_data`'s rewrite, with the
`changed` contribution of the statement. -/
def transformStmt (lg : List String) (wp : String) : Stmt → Stmt × Bool
  | .importNode items =>
    (.importNode (transformImportItems lg wp items), importChangedB lg items)
  | .fromImportNode mp ts =>
    if mp.headD "" ∈ lg then
      (.fromImportNode ((wp ++ mp.headD "") :: mp.tail) ts, true)
    else (.fromImportNode mp ts, false)
  | .other s => (.other s, false)

/-- The whole-tree rewrite of `get_data` and the final `changed`
flag. -/
def transformAst (lg : List String) (wp : String) (ast : List Stmt) : List Stmt × Bool :=
  (ast.map (fun s => (transformStmt lg wp s).1),
   ast.any (fun s => (transformStmt lg wp s).2))

/-! ## Serialisation (`ast.dumps()`) and re-parsing -/

/-- Rendered text of a `name_as_name`. -/
def dumpNameAs (na : NameAs) : String :=
  na.value ++ (if na.target = "" then "" else " as " ++ na.target)

/-- Rendered text of a `dotted_as_name`. -/
def dumpDottedAs (da : DottedAs) : String :=
  joinDots da.value ++ (if da.target = "" then "" else " as " ++ da.target)

/-- Rendered text of one statement. -/
def dumpStmt : Stmt → String
  | .importNode items => "import " ++ String.intercalate ", " (items.map dumpDottedAs)
  | .fromImportNode mp ts =>
    "from " ++ joinDots mp ++ " import " ++ String.intercalate ", " (ts.map dumpNameAs)
  | .other s => s

/-- Rendered text of a whole tree. -/
def dumps (ast : List Stmt) : String :=
  String.intercalate "\n" (ast.map dumpStmt)

/-- Re-parsing a rendered `dotted_as_name`: the components are the
dot-separated fields of its rendered dotted name. -/
def normDottedAs (da : DottedAs) : DottedAs :=
  ⟨splitOnDot (joinDots da.value), da.target⟩

/-- Re-parsing a rendered statement. -/
def normStmt : Stmt → Stmt
  | .importNode items => .importNode (items.map normDottedAs)
  | .fromImportNode mp ts => .fromImportNode (splitOnDot (joinDots mp)) ts
  | .other s => .other s

/-- Re-parsing a rendered tree: what `redbaron.RedBaron (ast.dumps())`
yields on the statements the rewrite inspects. -/
def normAst (ast : List Stmt) : List Stmt :=
  ast.map normStmt

/-! ## Well-formedness of parsed source

A dotted name freshly parsed from real source has at least one
component and every component is a nonempty identifier without dots. -/

/-- One parsed dotted-name component: nonempty, dot-free. -/
def wfComp (s : String) : Prop :=
  s ≠ "" ∧ '.' ∉ s.data

/-- A parsed dotted name. -/
def wfName (l : List String) : Prop :=
  l ≠ [] ∧ ∀ c ∈ l, wfComp c

/-- A parsed statement. -/
def wfStmt : Stmt → Prop
  | .importNode items => ∀ da ∈ items, wfName da.value
  | .fromImportNode mp _ => wfName mp
  | .other _ => True

/-- A parsed tree. -/
def wfAst (ast : List Stmt) : Prop :=
  ∀ s ∈ ast, wfStmt s

/-- The first dot-separated field of `whole_prefix` (the finder's
registered name, for the prefixes the Resolver builds). -/
def wpHeadComp (wp : String) : String :=
  String.mk (wp.data.takeWhile (fun c => c ≠ '.'))

/-- A rewritten item is stable when, after re-parsing its rendered
text, its first component is not a local name. -/
def stableDA (lg : List String) (da : DottedAs) : Prop :=
  (normDottedAs da).value.headD "" ∉ lg

/-- A rewritten statement all of whose dotted roots re-parse to
non-local names. -/
def stableStmt (lg : List String) : Stmt → Prop
  | .importNode items => ∀ da ∈ items, stableDA lg da
  | .fromImportNode mp _ => (splitOnDot (joinDots mp)).headD "" ∉ lg
  | .other _ => True

/-! ## The file system model -/

/-- Abstract POSIX-ish file system: which canonical paths are
directories, which are regular files, and the entries of each
directory (`os.listdir`). -/
structure FileSystem where
  isdir : String → Bool
  isfile : String → Bool
  children : String → List String

/-- Errors surfacing from the mechanism: `FileNotFoundError` raised by
`os.listdir` on a missing directory, and the `ImportError` raised by
`get_filename`. -/
inductive PyErr where
  | fileNotFound : String → PyErr
  | importError : PyErr
deriving DecidableEq

deriving instance DecidableEq for Except

/-- Drop trailing slash characters (`rstrip("/")`). -/
def rstripSlash (l : List Char) : List Char :=
  (l.reverse.dropWhile (fun c => c = '/')).reverse

/-- Python `os.path.join(a, b)` on POSIX: an absolute `b` wins; otherwise a
separator is inserted unless `a` is empty or already ends in one. -/
def joinPath (a b : String) : String :=
  if b.data.headD ' ' == '/' then b
  else if a.data.isEmpty || (a.data.reverse.headD ' ' == '/') then a ++ b
  else a ++ "/" ++ b

/-- Python `os.path.dirname(p)` on POSIX. -/
def dirname (p : String) : String :=
  let l := p.data
  let i := l.length - (l.reverse.takeWhile (fun c => c ≠ '/')).length
  let head := l.take i
  if head.isEmpty || head.all (fun c => c = '/') then String.mk head
  else String.mk (rstripSlash head)

/-- Python `os.path.exists(p)`: a path with a trailing separator exists
exactly when the stripped path is a directory; otherwise a directory
or regular file must be at `p`. -/
def pathExists (fs : FileSystem) (p : String) : Bool :=
  if !p.data.isEmpty && (p.data.reverse.headD ' ' == '/') then
    fs.isdir (String.mk (rstripSlash p.data))
  else fs.isdir p || fs.isfile p

/-- Python `os.listdir(p)`, raising `FileNotFoundError` when `p` is not a
directory. -/
def listdirE (fs : FileSystem) (p : String) : Except PyErr (List String) :=
  if fs.isdir p then .ok (fs.children p) else .error (.fileNotFound p)

/-! ## The Resolver (`ExternalPathFinder`) -/

/-- The Loader configuration `find_spec` builds
(`PrefixedImportSourceLoader.__init__`): the cached local-name set,
the external dotted namespace (`ext_prefix` in the source, here
`extPfx`), the per-root full qualification text (`whole_prefix`, here
`wholePfx`), the base directory and the rewrite flag. -/
structure LoaderCfg where
  local_globals : List String
  extPfx : String
  wholePfx : String
  base_path : String
  rewrite : Bool
deriving DecidableEq

/-- A returned module specification: name, bound loader, and the
`is_package` mark. -/
structure SpecRecord where
  fullname : String
  loader : LoaderCfg
  is_package : Bool
deriving DecidableEq

/-- The Resolver's registration data (`ExternalPathFinder.__init__`,
minus the mutable cache): watched name, watched dotted namespace
(`self.prefix` in the source, here `pfx`), base directory, rewrite
flag. -/
structure Finder where
  name : String
  pfx : String
  base_path : String
  rewrite : Bool
deriving DecidableEq

/-- Model of `ExternalPathFinder.__init__`: the dotted namespace is
`name + "."` and a base path ending in the source extension is
replaced by its containing directory. -/
def mkFinder (name base_path : String) (rewrite : Bool) : Finder :=
  { name := name
    pfx := name ++ "."
    base_path := if strEnds ".py" base_path then dirname base_path else base_path
    rewrite := rewrite }

/-- The lazily populated `self.local_submodules` cache: root name to
the local-name set recorded for it. -/
abbrev Cache := List (String × List String)

/-- The set comprehension in `find_spec`: keep directory entries and
source files (extension stripped for files). -/
def listRootDir (fs : FileSystem) (path : String) : List String :=
  (fs.children path).filterMap (fun item =>
    if fs.isdir (joinPath path item) then some item
    else if strEnds ".py" item then some (strDropRight 3 item) else none)

/-- The first dotted component of `fullname` after the watched
namespace (`components[0]` in `find_spec`). -/
def rootOf (f : Finder) (fullname : String) : String :=
  (splitOnDot (strDrop f.pfx.length fullname)).headD ""

/-- The spec `find_spec` returns for a resolved root. -/
def mkSpec (f : Finder) (root : String) (lgs : List String) (fullname : String) : SpecRecord :=
  { fullname := fullname
    loader :=
      { local_globals := lgs
        extPfx := f.pfx
        wholePfx := f.pfx ++ root ++ "."
        base_path := f.base_path
        rewrite := f.rewrite }
    is_package := true }

/-- Model of `ExternalPathFinder.find_spec`: outcome (no opinion, a spec, or a
raised error), the cache after the call, and the roots whose
directory `os.listdir` was invoked on during the call. -/
def find_spec (f : Finder) (fs : FileSystem) (st : Cache) (fullname : String) :
    Except PyErr (Option SpecRecord) × Cache × List String :=
  if strStarts f.pfx fullname then
    let root := rootOf f fullname
    match List.lookup root st with
    | some lgs => (.ok (some (mkSpec f root lgs fullname)), st, [])
    | none =>
      let p := joinPath f.base_path root
      match listdirE fs p with
      | .ok _ =>
        let lgs := listRootDir fs p
        (.ok (some (mkSpec f root lgs fullname)), (root, lgs) :: st, [root])
      | .error e => (.error e, st, [root])
  else (.ok none, st, [])

/-- A sequence of resolution requests against one Resolver: the final
cache and the concatenated listing events. -/
def runFinder (f : Finder) (fs : FileSystem) : List String → Cache → Cache × List String
  | [], st => (st, [])
  | n :: ns, st =>
    let r := find_spec f fs st n
    let rest := runFinder f fs ns r.2.1
    (rest.1, r.2.2 ++ rest.2)

/-! ## The Loader (`PrefixedImportSourceLoader`) -/

/-- The candidate path `get_filename` starts from: the
extPfx-stripped dotted components of `fullname` joined onto the base
directory. -/
def candidatePath (L : LoaderCfg) (fullname : String) : String :=
  (splitOnDot (strDrop L.extPfx.length fullname)).foldl joinPath L.base_path

/-- Model of `PrefixedImportSourceLoader.get_filename`: a directory candidate
prefers its `__init__.py`, else is kept as a marker-less directory
location; a non-directory candidate gets the source extension; a
final missing path raises `ImportError`. -/
def get_filename (fs : FileSystem) (L : LoaderCfg) (fullname : String) : Except PyErr String :=
  let p0 := candidatePath L fullname
  let p :=
    if fs.isdir p0 then
      let init := joinPath p0 "__init__.py"
      if pathExists fs init then init else p0 ++ "/"
    else p0 ++ ".py"
  if pathExists fs p then .ok p else .error .importError

/-- Outcome of `PrefixedImportSourceLoader.get_data`: the text handed
to the import machinery and the text written back to the file, when
any. -/
structure GetDataOut where
  returned : String
  written : Option String
deriving DecidableEq

/-- Model of `PrefixedImportSourceLoader.get_data` on a file at `path` whose
parsed content is `src`: a path without the source extension yields
empty source and no write; otherwise the tree is rewritten, dumped,
written back exactly when the rewrite flag is set and something
changed, and the dumped text is returned. -/
def get_data (L : LoaderCfg) (path : String) (src : List Stmt) : GetDataOut :=
  if strEnds ".py" path then
    let r := transformAst L.local_globals L.wholePfx src
    { returned := dumps r.1
      written := if L.rewrite && r.2 then some (dumps r.1) else none }
  else { returned := "", written := none }

/-! ## Concrete fixtures -/

/-- A file system with one root directory `/b/r` holding a source
file `sub.py` and a marker-style package `pkg`. -/
def fsA : FileSystem :=
  { isdir := fun p => p == "/b/r" || p == "/b/r/pkg"
    isfile := fun p => p == "/b/r/sub.py" || p == "/b/r/pkg/__init__.py"
    children := fun p => if p == "/b/r" then ["sub.py", "pkg"] else [] }

/-- An empty file system. -/
def fsEmpty : FileSystem :=
  { isdir := fun _ => false, isfile := fun _ => false, children := fun _ => [] }

/-- A loader for root `r` of `fsA` under the namespace `ext`. -/
def ldrA : LoaderCfg :=
  { local_globals := ["sub", "pkg"]
    extPfx := "ext."
    wholePfx := "ext.r."
    base_path := "/b"
    rewrite := false }


/-- An import statement none of whose dotted roots is local (the
frame of the non-local-untouched property). -/
def stmtNonLocal (lg : List String) : Stmt → Prop
  | .importNode items => ∀ da ∈ items, da.value.headD "" ∉ lg
  | .fromImportNode mp _ => mp.headD "" ∉ lg
  | .other _ => True

/-- Resolver requests used to exercise the cache. -/
def reqsA : List String := ["ext.r.sub", "ext.r.pkg", "ext.r.sub"]

/-- The local-name set and source of the idempotence counterexample:
the root directory also holds an entry named like the watched
namespace itself. -/
def lgClash : List String := ["sub", "ext"]

/-- The source `import sub`. -/
def astSub : List Stmt := [.importNode [⟨["sub"], ""⟩]]

/-- A loader like `ldrA` but in rewrite-in-place mode, watching only
`sub`. -/
def ldrRW : LoaderCfg :=
  { local_globals := ["sub"]
    extPfx := "ext."
    wholePfx := "ext.r."
    base_path := "/b"
    rewrite := true }

/-! ## Helper lemmas -/

lemma mapSelf {α : Type} {l : List α} {f : α → α} (h : ∀ x ∈ l, f x = x) : l.map f = l := by
  induction l with
  | nil => rfl
  | cons a t ih =>
    simp only [List.map_cons, h a (List.mem_cons_self a t)]
    rw [ih (fun x hx => h x (List.mem_cons_of_mem a hx))]

lemma flatMapSelf {α : Type} {l : List α} {f : α → List α} (h : ∀ x ∈ l, f x = [x]) :
    l.flatMap f = l := by
  induction l with
  | nil => rfl
  | cons a t ih =>
    simp only [List.flatMap_cons, h a (List.mem_cons_self a t)]
    rw [ih (fun x hx => h x (List.mem_cons_of_mem a hx))]
    rfl

lemma anyFalse {α : Type} {l : List α} {p : α → Bool} (h : ∀ x ∈ l, p x = false) :
    l.any p = false := by
  rw [List.any_eq_false]
  intro x hx
  simp [h x hx]

/-! ## Claim C1: the plain-import rewrite -/

/-- Claim C1: a plain-import target whose first component is local
gets its first component qualified with the whole qualification text;
an unaliased target is followed by a synthetic `... as root` item,
and is dropped when it had exactly one component and kept when it had
several; an aliased target gets no synthetic item; such a statement
marks the file changed. -/
theorem c1_plain_import_rewrite (lg : List String) (wp : String) (items : List DottedAs)
    (da : DottedAs) (hmem : da ∈ items) (hroot : da.value.headD "" ∈ lg) :
    transformStmt lg wp (.importNode items) =
      (.importNode (items.flatMap (transformDottedAs lg wp)), true) ∧
    (da.target = "" → da.value.length = 1 →
      transformDottedAs lg wp da = [⟨[wp ++ da.value.headD ""], da.value.headD ""⟩]) ∧
    (da.target = "" → da.value.length ≠ 1 →
      transformDottedAs lg wp da =
        [⟨(wp ++ da.value.headD "") :: da.value.tail, da.target⟩,
         ⟨[wp ++ da.value.headD ""], da.value.headD ""⟩]) ∧
    (da.target ≠ "" →
      transformDottedAs lg wp da = [⟨(wp ++ da.value.headD "") :: da.value.tail, da.target⟩]) := by
  have hroot2 : da.value.head?.getD "" ∈ lg := by simpa using hroot
  refine ⟨?_, ?_, ?_, ?_⟩
  · have hany : importChangedB lg items = true := by
      rw [importChangedB, List.any_eq_true]
      exact ⟨da, hmem, by simpa using hroot⟩
    simp [transformStmt, transformImportItems, hany]
  · intro h1 h2
    simp [transformDottedAs, hroot2, h1, h2]
  · intro h1 h2
    simp [transformDottedAs, hroot2, h1, h2]
  · intro h1
    simp [transformDottedAs, hroot2, h1]

/-- Witness for C1 at `import sub` with local set `{sub}`. -/
theorem c1_plain_import_rewrite_witness :
    transformStmt ["sub"] "p.q." (.importNode [⟨["sub"], ""⟩]) =
      (.importNode [⟨["p.q.sub"], "sub"⟩], true) ∧
    transformDottedAs ["sub"] "p.q." ⟨["sub"], ""⟩ = [⟨["p.q.sub"], "sub"⟩] := by
  have h := c1_plain_import_rewrite ["sub"] "p.q." [⟨["sub"], ""⟩] ⟨["sub"], ""⟩
    (by decide) (by decide)
  exact ⟨h.1.trans (by decide), (h.2.1 rfl rfl).trans (by decide)⟩

/-! ## Claim C3: the from-import rewrite -/

/-- Claim C3: a from-import whose module path starts with a local
name gets exactly that first component qualified; the imported names
and their aliases are untouched; the statement marks the file
changed. -/
theorem c3_from_import_rewrite (lg : List String) (wp : String) (mp : List String)
    (ts : List NameAs) (h : mp.headD "" ∈ lg) :
    transformStmt lg wp (.fromImportNode mp ts) =
      (.fromImportNode ((wp ++ mp.headD "") :: mp.tail) ts, true) := by
  have h2 : mp.head?.getD "" ∈ lg := by simpa using h
  simp [transformStmt, h2]

/-- Witness for C3 at `from sub.deep import name as n`. -/
theorem c3_from_import_rewrite_witness :
    transformStmt ["sub"] "p.q." (.fromImportNode ["sub", "deep"] [⟨"name", "n"⟩]) =
      (.fromImportNode ["p.q.sub", "deep"] [⟨"name", "n"⟩], true) := by
  exact (c3_from_import_rewrite ["sub"] "p.q." ["sub", "deep"] [⟨"name", "n"⟩]
    (by decide)).trans (by decide)

/-! ## Claim C7: non-local imports untouched -/

lemma transformStmt_nonlocal (lg : List String) (wp : String) (s : Stmt)
    (h : stmtNonLocal lg s) : transformStmt lg wp s = (s, false) := by
  cases s with
  | importNode items =>
    have h1 : transformImportItems lg wp items = items := by
      apply flatMapSelf
      intro x hx
      have hx2 : x.value.head?.getD "" ∉ lg := by simpa using h x hx
      simp [transformDottedAs, hx2]
    have h2 : importChangedB lg items = false := by
      apply anyFalse
      intro x hx
      simpa using h x hx
    simp [transformStmt, h1, h2]
  | fromImportNode mp ts =>
    have h1 : mp.headD "" ∉ lg := h
    have h2 : mp.head?.getD "" ∉ lg := by simpa using h1
    simp [transformStmt, h2]
  | other s => rfl

/-- Claim C7: a tree all of whose import statements have non-local
roots is rewritten to itself, the changed flag stays false, and the
rendered text is byte-for-byte the rendered original. -/
theorem c7_nonlocal_untouched (lg : List String) (wp : String) (ast : List Stmt)
    (h : ∀ s ∈ ast, stmtNonLocal lg s) :
    transformAst lg wp ast = (ast, false) ∧
    dumps (transformAst lg wp ast).1 = dumps ast := by
  have e1 : ast.map (fun s => (transformStmt lg wp s).1) = ast :=
    mapSelf (fun s hs => by rw [transformStmt_nonlocal lg wp s (h s hs)])
  have e2 : ast.any (fun s => (transformStmt lg wp s).2) = false :=
    anyFalse (fun s hs => by rw [transformStmt_nonlocal lg wp s (h s hs)])
  have hA : transformAst lg wp ast = (ast, false) := by
    simp [transformAst, e1, e2]
  exact ⟨hA, by rw [hA]⟩

/-- Witness for C7 at `import foreign.mod` / `from elsewhere import x`
with local set `{sub}`. -/
theorem c7_nonlocal_untouched_witness :
    transformAst ["sub"] "p.q."
        [.importNode [⟨["foreign", "mod"], ""⟩], .fromImportNode ["elsewhere"] [⟨"x", ""⟩]] =
      ([.importNode [⟨["foreign", "mod"], ""⟩], .fromImportNode ["elsewhere"] [⟨"x", ""⟩]],
       false) := by
  exact (c7_nonlocal_untouched ["sub"] "p.q."
    [.importNode [⟨["foreign", "mod"], ""⟩], .fromImportNode ["elsewhere"] [⟨"x", ""⟩]]
    (by intro s hs
        simp only [List.mem_cons, List.mem_singleton] at hs
        rcases hs with rfl | rfl | h
        · intro da hda
          simp only [List.mem_singleton] at hda
          subst hda
          decide
        · simp only [stmtNonLocal]
          decide
        · cases h)).1

/-! ## Claim C8: write-back discipline of `get_data` -/

/-- Claim C8: on a source-extension path, `get_data` returns the
serialized rewritten text in all cases, writes it back exactly when
the loader is in rewrite mode and the transformation changed
something, and otherwise leaves the file untouched. -/
theorem c8_write_back (L : LoaderCfg) (path : String) (src : List Stmt)
    (h : strEnds ".py" path = true) :
    (get_data L path src).returned = dumps (transformAst L.local_globals L.wholePfx src).1 ∧
    (L.rewrite = true → (transformAst L.local_globals L.wholePfx src).2 = true →
      (get_data L path src).written =
        some (dumps (transformAst L.local_globals L.wholePfx src).1)) ∧
    (L.rewrite = false ∨ (transformAst L.local_globals L.wholePfx src).2 = false →
      (get_data L path src).written = none) := by
  refine ⟨?_, ?_, ?_⟩
  · simp [get_data, h]
  · intro h1 h2
    simp [get_data, h, h1, h2]
  · intro h1
    rcases h1 with h1 | h1 <;> simp [get_data, h, h1]

/-- Witness for C8: rewrite mode plus a changed tree produces a
write-back of the returned text. -/
theorem c8_write_back_witness :
    strEnds ".py" "/b/r/sub.py" = true ∧
    (get_data ldrRW "/b/r/sub.py" astSub).written = some "import ext.r.sub as sub" ∧
    (get_data ldrRW "/b/r/sub.py" astSub).returned = "import ext.r.sub as sub" := by
  have h := c8_write_back ldrRW "/b/r/sub.py" astSub (by decide)
  exact ⟨by decide, (h.2.1 rfl (by decide)).trans (by decide), h.1.trans (by decide)⟩

/-! ## Claim C10: base-path normalisation at construction -/

/-- Claim C10: a Resolver constructed on a path ending in the source
extension uses that path's containing directory as base directory,
any other path is used unchanged. -/
theorem c10_base_path (name bp : String) (rw : Bool) :
    (strEnds ".py" bp = true → (mkFinder name bp rw).base_path = dirname bp) ∧
    (strEnds ".py" bp = false → (mkFinder name bp rw).base_path = bp) := by
  constructor <;> intro h <;> simp [mkFinder, h]

/-- Witness for C10 at a module file path. -/
theorem c10_base_path_witness :
    strEnds ".py" "/a/b/mod.py" = true ∧
    (mkFinder "m" "/a/b/mod.py" true).base_path = "/a/b" := by
  exact ⟨by decide, ((c10_base_path "m" "/a/b/mod.py" true).1 (by decide)).trans (by decide)⟩

/-! ## Claim C5: path resolution of `get_filename` -/

/-- Claim C5: `get_filename` joins the stripped dotted components
onto the base directory; a directory candidate yields its package
marker if that exists and the marker-less directory location
otherwise, a non-directory candidate gets the source extension, and
`ImportError` is raised exactly when the resulting path does not
exist on disk. -/
theorem c5_get_filename_paths (fs : FileSystem) (L : LoaderCfg) (fullname : String) :
    (fs.isdir (candidatePath L fullname) = true →
      pathExists fs (joinPath (candidatePath L fullname) "__init__.py") = true →
      get_filename fs L fullname = .ok (joinPath (candidatePath L fullname) "__init__.py")) ∧
    (fs.isdir (candidatePath L fullname) = true →
      pathExists fs (joinPath (candidatePath L fullname) "__init__.py") = false →
      get_filename fs L fullname =
        if pathExists fs (candidatePath L fullname ++ "/") then
          .ok (candidatePath L fullname ++ "/")
        else .error .importError) ∧
    (fs.isdir (candidatePath L fullname) = false →
      get_filename fs L fullname =
        if pathExists fs (candidatePath L fullname ++ ".py") then
          .ok (candidatePath L fullname ++ ".py")
        else .error .importError) := by
  refine ⟨?_, ?_, ?_⟩
  · intro h1 h2
    simp [get_filename, h1, h2]
  · intro h1 h2
    simp [get_filename, h1, h2]
  · intro h1
    simp [get_filename, h1]

/-- Witness for C5: a plain submodule resolves to its source file. -/
theorem c5_get_filename_paths_witness :
    fsA.isdir (candidatePath ldrA "ext.r.sub") = false ∧
    get_filename fsA ldrA "ext.r.sub" = .ok "/b/r/sub.py" := by
  exact ⟨by decide,
    ((c5_get_filename_paths fsA ldrA "ext.r.sub").2.2 (by decide)).trans (by decide)⟩

/-! ## Claim C6: failure behaviour of resolution

The claim says resolution never raises and that a missing root
directory only surfaces later through the Loader.  The code calls
`os.listdir` on the root's directory during resolution, which raises
`FileNotFoundError` when that directory is missing and not yet
cached; the counterexample exhibits this.  The amended statement
keeps the rest: resolution raises nothing once the root is cached or
its directory exists, and a missing submodule under an existing root
surfaces only later, in `get_filename`. -/

/-- Counterexample to C6 as stated: a name under the watched
namespace whose root directory is missing makes the resolution step
itself raise the listing failure. -/
theorem c6_resolution_failure_counterexample :
    strStarts (mkFinder "ns" "/base" false).pfx "ns.gone.mod" = true ∧
    (find_spec (mkFinder "ns" "/base" false) fsEmpty [] "ns.gone.mod").1 =
      .error (.fileNotFound "/base/gone") := by
  decide

/-- Amended C6: under the watched namespace, resolution raises no
failure whenever the addressed root is cached or its directory
exists; when the root is uncached and its directory is missing,
resolution itself fails with the file-not-found error of the listing;
a missing submodule path surfaces later as the Loader's
`ImportError`. -/
theorem c6_resolution_failure_amended (f : Finder) (fs : FileSystem) (st : Cache)
    (fullname : String) (hs : strStarts f.pfx fullname = true) :
    (((List.lookup (rootOf f fullname) st).isSome = true ∨
        fs.isdir (joinPath f.base_path (rootOf f fullname)) = true) →
      ∀ e, (find_spec f fs st fullname).1 ≠ .error e) ∧
    ((List.lookup (rootOf f fullname) st = none ∧
        fs.isdir (joinPath f.base_path (rootOf f fullname)) = false) →
      (find_spec f fs st fullname).1 =
        .error (.fileNotFound (joinPath f.base_path (rootOf f fullname)))) ∧
    (∀ L : LoaderCfg, fs.isdir (candidatePath L fullname) = false →
      pathExists fs (candidatePath L fullname ++ ".py") = false →
      get_filename fs L fullname = .error .importError) := by
  refine ⟨?_, ?_, ?_⟩
  · intro hc e
    rcases hl : List.lookup (rootOf f fullname) st with _ | lgs
    · have hdir : fs.isdir (joinPath f.base_path (rootOf f fullname)) = true := by
        rcases hc with hc | hc
        · rw [hl] at hc
          simp at hc
        · exact hc
      simp [find_spec, hs, hl, listdirE, hdir]
    · simp [find_spec, hs, hl]
  · rintro ⟨hl, hdir⟩
    simp [find_spec, hs, hl, listdirE, hdir]
  · intro L h1 h2
    simp [get_filename, h1, h2]

/-- Witness for the amended C6: an existing root resolves without any
raised failure. -/
theorem c6_resolution_failure_amended_witness :
    strStarts (mkFinder "ext" "/b" false).pfx "ext.r.sub" = true ∧
    fsA.isdir (joinPath (mkFinder "ext" "/b" false).base_path
      (rootOf (mkFinder "ext" "/b" false) "ext.r.sub")) = true ∧
    ∀ e, (find_spec (mkFinder "ext" "/b" false) fsA [] "ext.r.sub").1 ≠ .error e := by
  refine ⟨by decide, by decide, ?_⟩
  exact (c6_resolution_failure_amended (mkFinder "ext" "/b" false) fsA [] "ext.r.sub"
    (by decide)).1 (Or.inr (by decide))

/-! ## Claim C9: prefix gating and the is-package mark -/

/-- Counterexample to C9 as stated: a fullname under the watched
namespace on which the Resolver raises instead of returning a
specification (its root directory is missing). -/
theorem c9_spec_gating_counterexample :
    strStarts (mkFinder "pkgns" "/base2" false).pfx "pkgns.mia.x" = true ∧
    (find_spec (mkFinder "pkgns" "/base2" false) fsEmpty [] "pkgns.mia.x").1 =
      .error (.fileNotFound "/base2/mia") := by
  decide

/-- Amended C9: a fullname that does not start with the watched
namespace gets no opinion; a fullname that does, and whose root is
cached or whose root directory exists, gets a specification marked as
a package (is-package true) even when it will load as a plain file. -/
theorem c9_spec_gating_amended (f : Finder) (fs : FileSystem) (st : Cache)
    (fullname : String) :
    (strStarts f.pfx fullname = false → find_spec f fs st fullname = (.ok none, st, [])) ∧
    (strStarts f.pfx fullname = true →
      ((List.lookup (rootOf f fullname) st).isSome = true ∨
        fs.isdir (joinPath f.base_path (rootOf f fullname)) = true) →
      ∃ sp st2 ev, find_spec f fs st fullname = (.ok (some sp), st2, ev) ∧
        sp.is_package = true) := by
  constructor
  · intro h
    simp [find_spec, h]
  · intro hs hc
    rcases hl : List.lookup (rootOf f fullname) st with _ | lgs
    · have hdir : fs.isdir (joinPath f.base_path (rootOf f fullname)) = true := by
        rcases hc with hc | hc
        · rw [hl] at hc
          simp at hc
        · exact hc
      exact ⟨mkSpec f (rootOf f fullname)
          (listRootDir fs (joinPath f.base_path (rootOf f fullname))) fullname,
        (rootOf f fullname,
          listRootDir fs (joinPath f.base_path (rootOf f fullname))) :: st,
        [rootOf f fullname],
        by simp [find_spec, hs, hl, listdirE, hdir], rfl⟩
    · exact ⟨mkSpec f (rootOf f fullname) lgs fullname, st, [],
        by simp [find_spec, hs, hl], rfl⟩

/-- Witness for the amended C9: a name that will load as a plain file
still gets an is-package specification. -/
theorem c9_spec_gating_amended_witness :
    strStarts (mkFinder "ext" "/b" false).pfx "ext.r.sub" = true ∧
    ∃ sp st2 ev, find_spec (mkFinder "ext" "/b" false) fsA [] "ext.r.sub" =
      (.ok (some sp), st2, ev) ∧ sp.is_package = true := by
  exact ⟨by decide, (c9_spec_gating_amended (mkFinder "ext" "/b" false) fsA []
    "ext.r.sub").2 (by decide) (Or.inr (by decide))⟩

/-! ## Claim C4: one directory listing per root -/

lemma find_spec_cache_mono (f : Finder) (fs : FileSystem) (st : Cache) (n r : String)
    (h : (List.lookup r st).isSome = true) :
    (List.lookup r (find_spec f fs st n).2.1).isSome = true := by
  by_cases hp : strStarts f.pfx n
  · rcases hl : List.lookup (rootOf f n) st with _ | lgs
    · by_cases hd : fs.isdir (joinPath f.base_path (rootOf f n))
      · simp only [find_spec, hp, if_true, hl, listdirE, hd, if_pos]
        simp only [List.lookup]
        split
        · simp
        · exact h
      · simp [find_spec, hp, hl, listdirE, hd, h]
    · simp [find_spec, hp, hl, h]
  · simp [find_spec, hp, h]

lemma find_spec_count_zero_of_cached (f : Finder) (fs : FileSystem) (st : Cache)
    (n r : String) (h : (List.lookup r st).isSome = true) :
    (find_spec f fs st n).2.2.count r = 0 := by
  by_cases hp : strStarts f.pfx n
  · by_cases hr : rootOf f n = r
    · subst hr
      rcases hl : List.lookup (rootOf f n) st with _ | lgs
      · rw [hl] at h
        simp at h
      · simp [find_spec, hp, hl]
    · rcases hl : List.lookup (rootOf f n) st with _ | lgs
      · by_cases hd : fs.isdir (joinPath f.base_path (rootOf f n))
        · simp [find_spec, hp, hl, listdirE, hd, List.count_cons, hr]
        · simp [find_spec, hp, hl, listdirE, hd, List.count_cons, hr]
      · simp [find_spec, hp, hl]
  · simp [find_spec, hp]

lemma runFinder_count_zero_of_cached (f : Finder) (fs : FileSystem) (ns : List String)
    (st : Cache) (r : String) (h : (List.lookup r st).isSome = true) :
    (runFinder f fs ns st).2.count r = 0 := by
  induction ns generalizing st with
  | nil => simp [runFinder]
  | cons n ns ih =>
    simp only [runFinder, List.count_append]
    rw [find_spec_count_zero_of_cached f fs st n r h,
      ih _ (find_spec_cache_mono f fs st n r h)]

/-- Claim C4: when a root's directory exists, any request sequence
starting from the empty cache triggers at most one listing of that
root, and a request for a name under an already-cached root reuses
the cached local-name set, leaves the cache unchanged, and performs
no listing. -/
theorem c4_listing_once (f : Finder) (fs : FileSystem) (reqs : List String) (r : String)
    (hdir : fs.isdir (joinPath f.base_path r) = true) :
    ((runFinder f fs reqs []).2.count r ≤ 1) ∧
    (∀ st lgs n, List.lookup r st = some lgs → strStarts f.pfx n = true →
      rootOf f n = r → find_spec f fs st n = (.ok (some (mkSpec f r lgs n)), st, [])) := by
  constructor
  · have main : ∀ ns (st : Cache), (runFinder f fs ns st).2.count r ≤ 1 := by
      intro ns
      induction ns with
      | nil =>
        intro st
        simp [runFinder]
      | cons n ns ih =>
        intro st
        simp only [runFinder, List.count_append]
        by_cases hc : (List.lookup r st).isSome = true
        · rw [find_spec_count_zero_of_cached f fs st n r hc,
            runFinder_count_zero_of_cached f fs ns _ r (find_spec_cache_mono f fs st n r hc)]
          omega
        · by_cases hp : strStarts f.pfx n
          · by_cases hr : rootOf f n = r
            · have hl : List.lookup r st = none := by
                rcases he : List.lookup r st with _ | v
                · rfl
                · rw [he] at hc
                  simp at hc
              subst hr
              have hev : find_spec f fs st n =
                  (.ok (some (mkSpec f (rootOf f n)
                    (listRootDir fs (joinPath f.base_path (rootOf f n))) n)),
                   (rootOf f n, listRootDir fs (joinPath f.base_path (rootOf f n))) :: st,
                   [rootOf f n]) := by
                simp [find_spec, hp, hl, listdirE, hdir]
              rw [hev]
              have hc2 : (List.lookup (rootOf f n)
                  ((rootOf f n, listRootDir fs (joinPath f.base_path (rootOf f n))) :: st)).isSome
                    = true := by
                simp [List.lookup]
              rw [runFinder_count_zero_of_cached f fs ns _ _ hc2]
              simp
            · have h0 : (find_spec f fs st n).2.2.count r = 0 := by
                rcases hl : List.lookup (rootOf f n) st with _ | lgs
                · by_cases hd : fs.isdir (joinPath f.base_path (rootOf f n))
                  · simp [find_spec, hp, hl, listdirE, hd, List.count_cons, hr]
                  · simp [find_spec, hp, hl, listdirE, hd, List.count_cons, hr]
                · simp [find_spec, hp, hl]
              rw [h0]
              simpa using ih _
          · have h0 : find_spec f fs st n = (.ok none, st, []) := by
              simp [find_spec, hp]
            rw [h0]
            simpa using ih _
    exact main reqs []
  · intro st lgs n hl hs hr
    simp [find_spec, hs, hr, hl]

/-- Witness for C4: three requests under root `r`, a single listing. -/
theorem c4_listing_once_witness :
    fsA.isdir (joinPath (mkFinder "ext" "/b" false).base_path "r") = true ∧
    (runFinder (mkFinder "ext" "/b" false) fsA reqsA []).2.count "r" ≤ 1 := by
  exact ⟨by decide,
    (c4_listing_once (mkFinder "ext" "/b" false) fsA reqsA "r" (by decide)).1⟩

/-! ## Claim C2: idempotence of the rewrite

Splitting and joining lemmas about rendered dotted names, leading to
the characterisation of a second rewrite pass over re-parsed output. -/

lemma splitChAux_ne_nil (l : List Char) : splitChAux l ≠ [] := by
  cases l with
  | nil => simp [splitChAux]
  | cons c cs =>
    simp only [splitChAux]
    split <;> simp

lemma splitChAux_append_nodot (xs ys : List Char) (h : '.' ∉ xs) :
    splitChAux (xs ++ ys) =
      (xs ++ (splitChAux ys).headD []) :: (splitChAux ys).tail := by
  induction xs with
  | nil =>
    rcases hys : splitChAux ys with _ | ⟨a, t⟩
    · exact absurd hys (splitChAux_ne_nil ys)
    · simp [hys]
  | cons c cs ih =>
    have hc : ¬(c = '.') := fun e => h (e ▸ List.mem_cons_self c cs)
    have h2 : '.' ∉ cs := fun hm => h (List.mem_cons_of_mem c hm)
    simp only [List.cons_append, splitChAux, List.append_eq, ih h2]
    rw [if_neg hc]
    simp

lemma splitChAux_nodot (xs : List Char) (h : '.' ∉ xs) : splitChAux xs = [xs] := by
  have h1 := splitChAux_append_nodot xs [] h
  simpa [splitChAux] using h1

lemma joinCh_splitChAux (l : List Char) : joinCh (splitChAux l) = l := by
  induction l with
  | nil => rfl
  | cons c cs ih =>
    simp only [splitChAux]
    rcases hr : splitChAux cs with _ | ⟨a, t⟩
    · exact absurd hr (splitChAux_ne_nil cs)
    · have hja : joinCh (a :: t) = cs := hr ▸ ih
      by_cases hc : c = '.'
      · subst hc
        rw [if_pos rfl]
        show joinCh ([] :: a :: t) = '.' :: cs
        rw [show joinCh ([] :: a :: t) = [] ++ '.' :: joinCh (a :: t) from rfl, hja]
        rfl
      · rw [if_neg hc]
        cases t with
        | nil =>
          show joinCh [c :: a] = c :: cs
          rw [show joinCh [c :: a] = c :: a from rfl]
          have : a = cs := hja
          rw [this]
        | cons b t2 =>
          show joinCh ((c :: a) :: b :: t2) = c :: cs
          rw [show joinCh ((c :: a) :: b :: t2) = (c :: a) ++ '.' :: joinCh (b :: t2) from rfl]
          rw [show joinCh (a :: b :: t2) = a ++ '.' :: joinCh (b :: t2) from rfl] at hja
          simp [← hja]

lemma splitChAux_joinCh_nodot (ls : List (List Char)) (hne : ls ≠ [])
    (h : ∀ x ∈ ls, '.' ∉ x) : splitChAux (joinCh ls) = ls := by
  induction ls with
  | nil => cases hne rfl
  | cons a t ih =>
    cases t with
    | nil =>
      show splitChAux (joinCh [a]) = [a]
      rw [show joinCh [a] = a from rfl]
      exact splitChAux_nodot a (h a (List.mem_cons_self a []))
    | cons b t2 =>
      rw [show joinCh (a :: b :: t2) = a ++ '.' :: joinCh (b :: t2) from rfl]
      rw [splitChAux_append_nodot a _ (h a (List.mem_cons_self a (b :: t2)))]
      rw [show splitChAux ('.' :: joinCh (b :: t2)) = [] :: splitChAux (joinCh (b :: t2))
        from by simp [splitChAux]]
      rw [ih (by simp) (fun x hx => h x (List.mem_cons_of_mem a hx))]
      simp

lemma splitChAux_headD_append (l m : List Char) (h : '.' ∈ l) :
    (splitChAux (l ++ m)).headD [] = l.takeWhile (fun c => c ≠ '.') := by
  induction l with
  | nil => cases h
  | cons c cs ih =>
    by_cases hc : c = '.'
    · subst hc
      simp [splitChAux, List.takeWhile_cons]
    · have h2 : '.' ∈ cs := by
        rcases List.mem_cons.mp h with he | hm
        · exact absurd he.symm hc
        · exact hm
      simp only [List.cons_append, splitChAux, List.append_eq]
      rw [if_neg hc]
      simp only [List.headD_cons, List.takeWhile_cons]
      rw [if_pos (by simpa using hc)]
      rw [ih h2]

lemma mk_data (s : String) : String.mk s.data = s := by
  cases s
  rfl

lemma joinDots_splitOnDot (s : String) : joinDots (splitOnDot s) = s := by
  unfold joinDots splitOnDot
  rw [List.map_map]
  rw [show (String.data ∘ String.mk) = id from rfl, List.map_id]
  rw [joinCh_splitChAux]

lemma splitOnDot_joinDots_wf (l : List String) (h : wfName l) :
    splitOnDot (joinDots l) = l := by
  unfold splitOnDot joinDots
  rw [show (String.mk (joinCh (l.map String.data))).data = joinCh (l.map String.data) from rfl]
  rw [splitChAux_joinCh_nodot (l.map String.data)
    (by
      intro e
      exact h.1 (List.map_eq_nil_iff.mp e))
    (by
      intro x hx
      obtain ⟨c, hc, rfl⟩ := List.mem_map.mp hx
      exact (h.2 c hc).2)]
  rw [List.map_map]
  exact mapSelf (fun x _ => mk_data x)

lemma headD_map_mk (l : List (List Char)) :
    (l.map String.mk).headD "" = String.mk (l.headD []) := by
  cases l <;> rfl

lemma norm_head_qualified (wp root : String) (rest : List String) (hdot : '.' ∈ wp.data) :
    (splitOnDot (joinDots ((wp ++ root) :: rest))).headD "" = wpHeadComp wp := by
  unfold splitOnDot joinDots wpHeadComp
  rw [headD_map_mk]
  rw [show (((wp ++ root) :: rest).map String.data) = (wp ++ root).data :: rest.map String.data
    from rfl]
  rw [show (String.mk (joinCh ((wp ++ root).data :: rest.map String.data))).data =
    joinCh ((wp ++ root).data :: rest.map String.data) from rfl]
  have hjoin : ∃ m, joinCh ((wp ++ root).data :: rest.map String.data) = (wp ++ root).data ++ m := by
    rcases rest.map String.data with _ | ⟨b, t⟩
    · exact ⟨[], by simp [joinCh]⟩
    · exact ⟨'.' :: joinCh (b :: t), rfl⟩
  obtain ⟨m, hm⟩ := hjoin
  rw [hm, String.data_append, List.append_assoc]
  rw [splitChAux_headD_append wp.data (root.data ++ m) hdot]

lemma stableDA_qualified (lg : List String) (wp root : String) (rest : List String)
    (t : String) (hdot : '.' ∈ wp.data) (hwp : wpHeadComp wp ∉ lg) :
    stableDA lg ⟨(wp ++ root) :: rest, t⟩ := by
  show (splitOnDot (joinDots ((wp ++ root) :: rest))).headD "" ∉ lg
  rw [norm_head_qualified wp root rest hdot]
  exact hwp

lemma stableDA_wf_nonlocal (lg : List String) (da : DottedAs) (hwf : wfName da.value)
    (hr : da.value.headD "" ∉ lg) : stableDA lg da := by
  show (splitOnDot (joinDots da.value)).headD "" ∉ lg
  rw [splitOnDot_joinDots_wf da.value hwf]
  exact hr

lemma transformDottedAs_stable (lg : List String) (wp : String) (hdot : '.' ∈ wp.data)
    (hwp : wpHeadComp wp ∉ lg) (da : DottedAs) (hwf : wfName da.value) :
    ∀ da2 ∈ transformDottedAs lg wp da, stableDA lg da2 := by
  intro da2 h2
  simp only [transformDottedAs] at h2
  by_cases hr : da.value.headD "" ∈ lg
  · rw [if_pos hr] at h2
    by_cases ht : da.target = ""
    · rw [if_pos ht] at h2
      by_cases hlen : da.value.length = 1
      · rw [if_pos hlen] at h2
        simp only [List.mem_singleton] at h2
        subst h2
        exact stableDA_qualified lg wp (da.value.headD "") [] (da.value.headD "") hdot hwp
      · rw [if_neg hlen] at h2
        simp only [List.mem_cons, List.not_mem_nil, or_false] at h2
        rcases h2 with rfl | rfl
        · exact stableDA_qualified lg wp (da.value.headD "") da.value.tail da.target hdot hwp
        · exact stableDA_qualified lg wp (da.value.headD "") [] (da.value.headD "") hdot hwp
    · rw [if_neg ht] at h2
      simp only [List.mem_singleton] at h2
      subst h2
      exact stableDA_qualified lg wp (da.value.headD "") da.value.tail da.target hdot hwp
  · rw [if_neg hr] at h2
    simp only [List.mem_singleton] at h2
    rw [h2]
    exact stableDA_wf_nonlocal lg da hwf hr

lemma transformStmt_stable (lg : List String) (wp : String) (hdot : '.' ∈ wp.data)
    (hwp : wpHeadComp wp ∉ lg) (s : Stmt) (hwf : wfStmt s) :
    stableStmt lg (transformStmt lg wp s).1 := by
  cases s with
  | importNode items =>
    intro da2 h2
    simp only [transformStmt, transformImportItems, List.mem_flatMap] at h2
    obtain ⟨db, hdb, hmem⟩ := h2
    exact transformDottedAs_stable lg wp hdot hwp db (hwf db hdb) da2 hmem
  | fromImportNode mp ts =>
    by_cases h : mp.headD "" ∈ lg
    · have he : transformStmt lg wp (.fromImportNode mp ts) =
          (.fromImportNode ((wp ++ mp.headD "") :: mp.tail) ts, true) := by
        have h2 : mp.head?.getD "" ∈ lg := by simpa using h
        simp [transformStmt, h2]
      rw [he]
      show (splitOnDot (joinDots ((wp ++ mp.headD "") :: mp.tail))).headD "" ∉ lg
      rw [norm_head_qualified wp (mp.headD "") mp.tail hdot]
      exact hwp
    · have he : transformStmt lg wp (.fromImportNode mp ts) = (.fromImportNode mp ts, false) := by
        have h2 : mp.head?.getD "" ∉ lg := by simpa using h
        simp [transformStmt, h2]
      rw [he]
      show (splitOnDot (joinDots mp)).headD "" ∉ lg
      rw [splitOnDot_joinDots_wf mp hwf]
      exact h
  | other s => trivial

lemma transformStmt_norm_fixpoint (lg : List String) (wp : String) (s : Stmt)
    (hs : stableStmt lg s) : transformStmt lg wp (normStmt s) = (normStmt s, false) := by
  cases s with
  | importNode items =>
    have hf : ∀ x ∈ items.map normDottedAs, transformDottedAs lg wp x = [x] := by
      intro x hx
      obtain ⟨y, hy, rfl⟩ := List.mem_map.mp hx
      have hst : (normDottedAs y).value.headD "" ∉ lg := hs y hy
      have hst2 : (normDottedAs y).value.head?.getD "" ∉ lg := by simpa using hst
      simp [transformDottedAs, hst2]
    have h1 : transformImportItems lg wp (items.map normDottedAs) = items.map normDottedAs :=
      flatMapSelf hf
    have h2 : importChangedB lg (items.map normDottedAs) = false := by
      apply anyFalse
      intro x hx
      obtain ⟨y, hy, rfl⟩ := List.mem_map.mp hx
      have hst : (normDottedAs y).value.headD "" ∉ lg := hs y hy
      simpa using hst
    show transformStmt lg wp (.importNode (items.map normDottedAs)) =
      (.importNode (items.map normDottedAs), false)
    simp [transformStmt, h1, h2]
  | fromImportNode mp ts =>
    have hst : (splitOnDot (joinDots mp)).headD "" ∉ lg := hs
    have hst2 : (splitOnDot (joinDots mp)).head?.getD "" ∉ lg := by simpa using hst
    simp [transformStmt, normStmt, hst2]
  | other s => rfl

lemma dumpDottedAs_norm (da : DottedAs) : dumpDottedAs (normDottedAs da) = dumpDottedAs da := by
  show joinDots (splitOnDot (joinDots da.value)) ++
      (if da.target = "" then "" else " as " ++ da.target) =
    joinDots da.value ++ (if da.target = "" then "" else " as " ++ da.target)
  rw [joinDots_splitOnDot]

lemma dumpStmt_norm (s : Stmt) : dumpStmt (normStmt s) = dumpStmt s := by
  cases s with
  | importNode items =>
    show "import " ++ String.intercalate ", " ((items.map normDottedAs).map dumpDottedAs) =
      "import " ++ String.intercalate ", " (items.map dumpDottedAs)
    rw [List.map_map]
    congr 1
    exact congrArg (String.intercalate ", ") (List.map_congr_left (fun x _ => dumpDottedAs_norm x))
  | fromImportNode mp ts =>
    show "from " ++ joinDots (splitOnDot (joinDots mp)) ++ " import " ++
        String.intercalate ", " (ts.map dumpNameAs) =
      "from " ++ joinDots mp ++ " import " ++ String.intercalate ", " (ts.map dumpNameAs)
    rw [joinDots_splitOnDot]
  | other s => rfl

lemma dumps_norm (ast : List Stmt) : dumps (normAst ast) = dumps ast := by
  show String.intercalate "\n" ((ast.map normStmt).map dumpStmt) =
    String.intercalate "\n" (ast.map dumpStmt)
  rw [List.map_map]
  exact congrArg (String.intercalate "\n") (List.map_congr_left (fun x _ => dumpStmt_norm x))

/-- Counterexample to C2 as stated: with local-name set
`{sub, ext}` (the root directory also holds an entry named like the
watched namespace) and qualification text `ext.r.`, rewriting
`import sub` once gives `import ext.r.sub as sub`, and a second pass
over the re-parsed text rewrites it again (root component `ext` is
local), changing the text and reporting a change. -/
theorem c2_idempotence_counterexample :
    dumps (transformAst lgClash "ext.r."
        (normAst (transformAst lgClash "ext.r." astSub).1)).1 ≠
      dumps (transformAst lgClash "ext.r." astSub).1 ∧
    (transformAst lgClash "ext.r."
        (normAst (transformAst lgClash "ext.r." astSub).1)).2 = true := by
  decide

/-- Amended C2: for well-formed parsed source, and whenever the first
dot-separated field of the qualification text (the watched namespace
name) is not itself in the local-name set, a second rewrite pass over
the re-parsed output of the first changes nothing, reports no change,
and the final text of two passes equals the text of one pass. -/
theorem c2_idempotence_amended (lg : List String) (wp : String) (ast : List Stmt)
    (hwf : wfAst ast) (hdot : '.' ∈ wp.data) (hwp : wpHeadComp wp ∉ lg) :
    transformAst lg wp (normAst (transformAst lg wp ast).1) =
      (normAst (transformAst lg wp ast).1, false) ∧
    dumps (transformAst lg wp (normAst (transformAst lg wp ast).1)).1 =
      dumps (transformAst lg wp ast).1 := by
  have hstable : ∀ t ∈ (transformAst lg wp ast).1, stableStmt lg t := by
    intro t ht
    rw [show (transformAst lg wp ast).1 = ast.map (fun s => (transformStmt lg wp s).1)
      from rfl] at ht
    obtain ⟨s, hsmem, rfl⟩ := List.mem_map.mp ht
    exact transformStmt_stable lg wp hdot hwp s (hwf s hsmem)
  have hfix : ∀ u ∈ normAst (transformAst lg wp ast).1,
      transformStmt lg wp u = (u, false) := by
    intro u hu
    rw [show normAst (transformAst lg wp ast).1 =
      ((transformAst lg wp ast).1).map normStmt from rfl] at hu
    obtain ⟨t, htmem, rfl⟩ := List.mem_map.mp hu
    exact transformStmt_norm_fixpoint lg wp t (hstable t htmem)
  have hA : transformAst lg wp (normAst (transformAst lg wp ast).1) =
      (normAst (transformAst lg wp ast).1, false) := by
    have e1 : (normAst (transformAst lg wp ast).1).map
        (fun s => (transformStmt lg wp s).1) = normAst (transformAst lg wp ast).1 :=
      mapSelf (fun u hu => by rw [hfix u hu])
    have e2 : (normAst (transformAst lg wp ast).1).any
        (fun s => (transformStmt lg wp s).2) = false :=
      anyFalse (fun u hu => by rw [hfix u hu])
    rw [show transformAst lg wp (normAst (transformAst lg wp ast).1) =
      ((normAst (transformAst lg wp ast).1).map (fun s => (transformStmt lg wp s).1),
       (normAst (transformAst lg wp ast).1).any (fun s => (transformStmt lg wp s).2))
      from rfl, e1, e2]
  refine ⟨hA, ?_⟩
  rw [hA]
  exact dumps_norm (transformAst lg wp ast).1

/-- Witness for the amended C2 at `import sub` with local set `{sub}`
and qualification text `ext.r.`. -/
theorem c2_idempotence_amended_witness :
    wfAst astSub ∧ '.' ∈ "ext.r.".data ∧ wpHeadComp "ext.r." ∉ ["sub"] ∧
    transformAst ["sub"] "ext.r." (normAst (transformAst ["sub"] "ext.r." astSub).1) =
      (normAst (transformAst ["sub"] "ext.r." astSub).1, false) := by
  have hwf : wfAst astSub := by
    intro s hs
    simp only [astSub, List.mem_singleton] at hs
    subst hs
    intro da hda
    simp only [List.mem_singleton] at hda
    subst hda
    refine ⟨by decide, ?_⟩
    intro c hc
    simp only [List.mem_singleton] at hc
    subst hc
    exact ⟨by decide, by decide⟩
  exact ⟨hwf, by decide, by decide,
    (c2_idempotence_amended ["sub"] "ext.r." astSub hwf (by decide) (by decide)).1⟩
